import Mathlib

/-!
Verification of the replicated state machine core of an etcd fork.

The Go sources are shallowly embedded: machine integers become `Nat` with
explicit `% 2 ^ w` where overflow matters, external collaborators (the
key-value store, the transport, the raft module) are modelled through the
operation traces the code hands them, and code that panics is modelled with
`Option` (`none` = the process dies).

Layout: all definitions first, then the supporting lemmas and the claim
theorems.

  * `Etcd.idutil`  — the request-ID generator (`pkg/idutil`).
  * `Etcd.wait`    — the wait registry (`pkg/wait`).
  * `Etcd`         — requests, `applyRequest`, the cluster view, `genID`,
                     the apply engine, `send`, `snapshot`, and the await
                     phase of `Do`.
-/

namespace Etcd

/-- Two to the sixty-four, the modulus of Go's `uint64` arithmetic. -/
def U64 : Nat := 2 ^ 64

/-- Two to the fifty-six: the modulus of the 7-byte suffix of a request ID. -/
def U56 : Nat := 2 ^ 56

namespace idutil

/-- `tsLen` from the source: bit length of the 5-byte timestamp field. -/
def tsLen : Nat := 5 * 8

/-- `cntLen` from the source: bit length of the 2-byte counter field. -/
def cntLen : Nat := 2 * 8

/-- `suffixLen` from the source: bit length of the combined low 7 bytes. -/
def suffixLen : Nat := tsLen + cntLen

/-- `lowbit` from the source: `x & (math.MaxUint64 >> (64 - n))`,
the low `n` bits of `x`. -/
def lowbit (x : Nat) (n : Nat) : Nat :=
  x &&& (18446744073709551615 >>> (64 - n))

/-- The `Generator` struct. Go field `prefix` (the member byte already
shifted into the high byte) is called `pfx` here, and Go field `suffix`
(a `uint64` holding the live low 7 bytes) is called `sfx`. -/
structure Generator where
  pfx : Nat
  sfx : Nat
  deriving DecidableEq

/-- `NewGenerator` from the source: the prefix is `uint64(memberID) << 56`
and the suffix seeds the 5-byte timestamp field with the low 40 bits of the
wall-clock milliseconds, shifted past the 2-byte counter. -/
def NewGenerator (memberID : Nat) (unixMilli : Nat) : Generator :=
  { pfx := (memberID % 256) <<< suffixLen
    sfx := lowbit unixMilli tsLen <<< cntLen }

/-- `Generator.Next` from the source: increment the suffix (a `uint64`,
hence modulo `2^64`) and or the low 56 bits into the fixed prefix. -/
def Generator.Next (g : Generator) : Nat × Generator :=
  let s := (g.sfx + 1) % U64
  (g.pfx ||| lowbit s suffixLen, { g with sfx := s })

/-- The generator state after `n` calls to `Next`. -/
def Generator.after (g : Generator) : Nat → Generator
  | 0 => g
  | n + 1 => ((g.after n).Next).2

/-- The ID returned by the `n`-th call to `Next` (0-indexed). -/
def Generator.idAt (g : Generator) (n : Nat) : Nat := ((g.after n).Next).1

end idutil

/-! ### Association-list helpers

Go maps keyed by `uint64` are embedded as association lists over `Nat`.
`assocFind` is map lookup, `eraseKey` is `delete`, `updateKey` rewrites the
value stored under one key. -/

def assocFind {β : Type} : List (Nat × β) → Nat → Option β
  | [], _ => none
  | p :: rest, k => if p.1 = k then some p.2 else assocFind rest k

def eraseKey {β : Type} (l : List (Nat × β)) (k : Nat) : List (Nat × β) :=
  l.filter (fun p => p.1 != k)

def updateKey {β : Type} (l : List (Nat × β)) (k : Nat) (f : β → β) :
    List (Nat × β) :=
  l.map (fun p => if p.1 = k then (p.1, f p.2) else p)

namespace wait

/-- State of one delivery channel (`chan interface{}` of capacity one):
the list of values ever sent into it, in order, and whether it is closed. -/
structure ChanState (α : Type) where
  sent : List α
  closed : Bool
  deriving DecidableEq

/-- The `wait.List` struct (named `WaitState` because `List` would shadow
Lean's list type): `m` is the map from request ID to its channel, `chans`
is the allocation table of live channels, and `nextCh` allocates fresh
channel identities. -/
structure WaitState (α : Type) where
  m : List (Nat × Nat)
  chans : List (Nat × ChanState α)
  nextCh : Nat
  deriving DecidableEq

/-- `wait.New()`: empty map, no channels. -/
def initial (α : Type) : WaitState α := ⟨[], [], 0⟩

/-- `List.Register` from the source: return the channel already stored under
`id`, or install a fresh one-capacity channel. -/
def Register {α : Type} (w : WaitState α) (id : Nat) : Nat × WaitState α :=
  match assocFind w.m id with
  | some c => (c, w)
  | none =>
      (w.nextCh,
       { m := (id, w.nextCh) :: w.m
         chans := (w.nextCh, ⟨[], false⟩) :: w.chans
         nextCh := w.nextCh + 1 })

/-- `List.Trigger` from the source: look up the channel, delete the map
entry, then (outside the lock) send `x` into the channel and close it.
A missing entry is a no-op. -/
def Trigger {α : Type} (w : WaitState α) (id : Nat) (x : α) : WaitState α :=
  match assocFind w.m id with
  | some c =>
      { w with m := eraseKey w.m id
               chans := updateKey w.chans c (fun st => ⟨st.sent ++ [x], true⟩) }
  | none => w

/-- Whether the `ch <- x` in `Trigger` would block: the channel has capacity
one, so the send blocks exactly when the buffer already holds a value. -/
def TriggerBlocks {α : Type} (w : WaitState α) (id : Nat) : Bool :=
  match assocFind w.m id with
  | some c =>
      match assocFind w.chans c with
      | some st => decide (1 ≤ st.sent.length)
      | none => false
  | none => false

/-- Registry states reachable from `wait.New()` by `Register`/`Trigger`. -/
inductive Reach (α : Type) : WaitState α → Prop
  | init : Reach α (initial α)
  | register (w : WaitState α) (id : Nat) : Reach α w → Reach α (Register w id).2
  | trigger (w : WaitState α) (id : Nat) (x : α) : Reach α w → Reach α (Trigger w id x)

/-- Structural invariant of reachable registries: keys and channel values of
the map are duplicate-free, channel identities are below the allocator, and
every registered channel is empty and open. -/
structure INV {α : Type} (w : WaitState α) : Prop where
  mKeys : (w.m.map Prod.fst).Nodup
  mVals : (w.m.map Prod.snd).Nodup
  cKeys : (w.chans.map Prod.fst).Nodup
  mLt : ∀ p ∈ w.m, p.2 < w.nextCh
  cLt : ∀ p ∈ w.chans, p.1 < w.nextCh
  reg : ∀ p ∈ w.m, assocFind w.chans p.2 = some ⟨[], false⟩

end wait

/-! ### Requests and `applyRequest` -/

/-- The store `Attributes` record (`Name`, `ClientURLs`). -/
structure Attributes where
  Name : String
  ClientURLs : List String
  deriving DecidableEq

/-- `pb.Request`, restricted to the fields the apply path and `Do` read.
`PrevExist` is Go's `*bool` (`none` = unset, as `pbutil.GetBool` reports). -/
structure Request where
  ID : Nat
  Method : String
  Path : String
  Val : String
  Dir : Bool
  PrevExist : Option Bool
  PrevIndex : Nat
  PrevValue : String
  Expiration : Int
  Recursive : Bool
  Sorted : Bool
  Quorum : Bool
  Wait : Bool
  Time : Int
  deriving DecidableEq

/-- One call into the key-value store, with its arguments. -/
inductive StoreOp where
  | Create (path : String) (dir : Bool) (val : String) (unique : Bool)
      (expiration : Int)
  | Update (path : String) (val : String) (expiration : Int)
  | CompareAndSwap (path : String) (prevValue : String) (prevIndex : Nat)
      (val : String) (expiration : Int)
  | Set (path : String) (dir : Bool) (val : String) (expiration : Int)
  | CompareAndDelete (path : String) (prevValue : String) (prevIndex : Nat)
  | Delete (path : String) (dir : Bool) (recursive : Bool)
  | Get (path : String) (recursive : Bool) (sorted : Bool)
  | DeleteExpiredKeys (cutoff : Int)
  deriving DecidableEq

/-- `[[:xdigit:]]`. -/
def isXdigit (c : Char) : Bool :=
  c.isDigit || (('a' ≤ c) && (c ≤ 'f')) || (('A' ≤ c) && (c ≤ 'F'))

/-- The literal part `/0/members/` of `storeMemberAttributeRegexp`. -/
def membersLit : List Char := "/0/members/".toList

/-- The literal part `/attributes` of `storeMemberAttributeRegexp`. -/
def attributesLit : List Char := "/attributes".toList

/-- Does `/0/members/[[:xdigit:]]{1,16}/attributes` match at the start
of `s` (with arbitrary trailing characters allowed)? -/
def matchAttrFrom (s : List Char) : Bool :=
  membersLit.isPrefixOf s &&
    ((List.range 16).any (fun i =>
      let t := s.drop membersLit.length
      let k := i + 1
      decide (k ≤ t.length) && (t.take k).all isXdigit &&
        attributesLit.isPrefixOf (t.drop k)))

/-- Go's `Regexp.MatchString` is unanchored: it reports whether the pattern
matches anywhere in the string. -/
def searchAttr : List Char → Bool
  | [] => matchAttrFrom []
  | c :: rest => matchAttrFrom (c :: rest) || searchAttr rest

/-- `storeMemberAttributeRegexp.MatchString(path)` from the source. -/
def storeMemberAttributeMatch (path : String) : Bool :=
  searchAttr path.toList

/-- Anchored match: the path is exactly
`/0/members/<1..16 hex digits>/attributes`.  This is the reading the spec
sentence uses (its § 6 regex carries `^` and `$`). -/
def matchAttrFull (s : List Char) : Bool :=
  membersLit.isPrefixOf s &&
    ((List.range 16).any (fun i =>
      let t := s.drop membersLit.length
      let k := i + 1
      decide (k ≤ t.length) && (t.take k).all isXdigit &&
        decide (t.drop k = attributesLit)))

/-- Anchored member-attributes path test, on strings. -/
def isMemberAttributesPath (path : String) : Bool := matchAttrFull path.toList

/-- `path.Dir` for the already-clean paths the server uses: everything
before the final slash. -/
def pathDir (p : String) : String :=
  String.mk (((p.toList.reverse.dropWhile (fun c => c != '/')).drop 1).reverse)

/-- The observable effect of `applyRequest`: the store call it performs (if
any), the `Cluster.UpdateAttributes` call it performs (if any — recorded as
the member key, `path.Dir` of the request path, together with the raw JSON
value handed to the decoder), and whether it fails with
`ErrUnknownMethod`. -/
structure RequestEffect where
  op : Option StoreOp
  updateAttr : Option (String × String)
  unknownMethod : Bool
  deriving DecidableEq

/-- Effect consisting of a single store call. -/
def storeOnly (op : StoreOp) : RequestEffect := ⟨some op, none, false⟩

/-- `EtcdServer.applyRequest` from the source, as the effect it performs. -/
def applyRequest (r : Request) : RequestEffect :=
  match r.Method with
  | "POST" => storeOnly (.Create r.Path r.Dir r.Val true r.Expiration)
  | "PUT" =>
      match r.PrevExist with
      | some true =>
          if r.PrevIndex = 0 ∧ r.PrevValue = "" then
            storeOnly (.Update r.Path r.Val r.Expiration)
          else
            storeOnly (.CompareAndSwap r.Path r.PrevValue r.PrevIndex r.Val
              r.Expiration)
      | some false =>
          storeOnly (.Create r.Path r.Dir r.Val false r.Expiration)
      | none =>
          if 0 < r.PrevIndex ∨ r.PrevValue ≠ "" then
            storeOnly (.CompareAndSwap r.Path r.PrevValue r.PrevIndex r.Val
              r.Expiration)
          else if storeMemberAttributeMatch r.Path then
            ⟨some (.Set r.Path r.Dir r.Val r.Expiration),
              some (pathDir r.Path, r.Val), false⟩
          else
            storeOnly (.Set r.Path r.Dir r.Val r.Expiration)
  | "DELETE" =>
      if 0 < r.PrevIndex ∨ r.PrevValue ≠ "" then
        storeOnly (.CompareAndDelete r.Path r.PrevValue r.PrevIndex)
      else
        storeOnly (.Delete r.Path r.Dir r.Recursive)
  | "QGET" => storeOnly (.Get r.Path r.Recursive r.Sorted)
  | "SYNC" => ⟨some (.DeleteExpiredKeys r.Time), none, false⟩
  | _ => ⟨none, none, true⟩

/-- The `PUT` decision table exactly as the spec sentence states it, with
the member-attributes condition read as an anchored path match. -/
def putTableSpec (r : Request) : RequestEffect :=
  match r.PrevExist with
  | some true =>
      if r.PrevIndex = 0 ∧ r.PrevValue = "" then
        storeOnly (.Update r.Path r.Val r.Expiration)
      else
        storeOnly (.CompareAndSwap r.Path r.PrevValue r.PrevIndex r.Val
          r.Expiration)
  | some false =>
      storeOnly (.Create r.Path r.Dir r.Val false r.Expiration)
  | none =>
      if 0 < r.PrevIndex ∨ r.PrevValue ≠ "" then
        storeOnly (.CompareAndSwap r.Path r.PrevValue r.PrevIndex r.Val
          r.Expiration)
      else if isMemberAttributesPath r.Path then
        ⟨some (.Set r.Path r.Dir r.Val r.Expiration),
          some (pathDir r.Path, r.Val), false⟩
      else
        storeOnly (.Set r.Path r.Dir r.Val r.Expiration)

/-- The `PUT` decision table with the member-attributes condition as the
code actually evaluates it: an unanchored regexp search. -/
def putTableAmended (r : Request) : RequestEffect :=
  match r.PrevExist with
  | some true =>
      if r.PrevIndex = 0 ∧ r.PrevValue = "" then
        storeOnly (.Update r.Path r.Val r.Expiration)
      else
        storeOnly (.CompareAndSwap r.Path r.PrevValue r.PrevIndex r.Val
          r.Expiration)
  | some false =>
      storeOnly (.Create r.Path r.Dir r.Val false r.Expiration)
  | none =>
      if 0 < r.PrevIndex ∨ r.PrevValue ≠ "" then
        storeOnly (.CompareAndSwap r.Path r.PrevValue r.PrevIndex r.Val
          r.Expiration)
      else if storeMemberAttributeMatch r.Path then
        ⟨some (.Set r.Path r.Dir r.Val r.Expiration),
          some (pathDir r.Path, r.Val), false⟩
      else
        storeOnly (.Set r.Path r.Dir r.Val r.Expiration)

/-! ### The cluster view -/

/-- A cluster member, with `RaftAttributes` (`PeerURLs`) and `Attributes`
(`Name`, `ClientURLs`) flattened in, as the Go struct embeds them. -/
structure Member where
  ID : Nat
  PeerURLs : List String
  Name : String
  ClientURLs : List String
  deriving DecidableEq

/-- One membership-related write issued to the persistent store:
`Create(/0/members/<id>/raftAttributes)`, `Delete(/0/members/<id>)`,
`Create(/0/removed_members/<id>)`, `Update(/0/members/<id>/raftAttributes)`. -/
inductive StoreWrite where
  | createRaftAttributes (id : Nat) (peerURLs : List String)
  | deleteMemberKey (id : Nat)
  | createRemovedKey (id : Nat)
  | updateRaftAttributes (id : Nat) (peerURLs : List String)
  deriving DecidableEq

/-- The persistent store, restricted to the membership namespace: the
decoded members under `/0/members`, the tombstoned ids under
`/0/removed_members`, and the trace of membership writes issued so far. -/
structure Store where
  members : List (Nat × Member)
  removed : List Nat
  writes : List StoreWrite
  deriving DecidableEq

/-- One peer notification handed to the transport. -/
inductive TransportOp where
  | addPeer (id : Nat) (urls : List String)
  | removePeer (id : Nat)
  | updatePeer (id : Nat) (urls : List String)
  deriving DecidableEq

/-- The `Cluster` struct: cluster id, in-memory member and tombstone
caches, the membership index, the persistent store, and the trace of peer
notifications sent to the transport. -/
structure Cluster where
  id : Nat
  members : List (Nat × Member)
  removed : List Nat
  index : Nat
  store : Store
  transport : List TransportOp
  deriving DecidableEq

/-- `membersFromStore`: decode the authoritative membership from the
persisted store.  The store model already holds the decoded members and
tombstones, so this is projection. -/
def membersFromStore (st : Store) : List (Nat × Member) × List Nat :=
  (st.members, st.removed)

/-- `raftpb.ConfChange` type selector. -/
inductive ConfChangeType where
  | AddNode
  | RemoveNode
  | UpdateNode
  deriving DecidableEq

/-- `raftpb.ConfChange`, with its `Context` already decoded to the `Member`
it carries (the Go code treats a decode failure as a fatal assertion; the
context is unused for `RemoveNode`). -/
structure ConfChange where
  ID : Nat
  typ : ConfChangeType
  NodeID : Nat
  context : Member
  deriving DecidableEq

/-- The membership validation errors. -/
inductive ClusterError where
  | ErrIDRemoved
  | ErrIDExists
  | ErrIDNotFound
  | ErrPeerURLexists
  deriving DecidableEq

/-- `Cluster.ValidateConfigurationChange` from the source: recompute the
membership from the persisted store, then vet the proposed change. -/
def ValidateConfigurationChange (c : Cluster) (cc : ConfChange) :
    Option ClusterError :=
  let ms := (membersFromStore c.store).1
  let rm := (membersFromStore c.store).2
  let id := cc.NodeID
  if rm.contains id then some .ErrIDRemoved
  else
    match cc.typ with
    | .AddNode =>
        if (assocFind ms id).isSome then some .ErrIDExists
        else
          let urls := (ms.map (fun p => p.2.PeerURLs)).flatten
          if cc.context.PeerURLs.any (fun u => urls.contains u) then
            some .ErrPeerURLexists
          else none
    | .RemoveNode =>
        if (assocFind ms id).isNone then some .ErrIDNotFound else none
    | .UpdateNode =>
        if (assocFind ms id).isNone then some .ErrIDNotFound
        else
          let urls :=
            ((ms.filter (fun p => p.2.ID != id)).map
              (fun p => p.2.PeerURLs)).flatten
          if cc.context.PeerURLs.any (fun u => urls.contains u) then
            some .ErrPeerURLexists
          else none

/-- The validation decision table as the spec sentence states it, as a
function of the persisted membership. -/
def validateSpec (ms : List (Nat × Member)) (rm : List Nat)
    (cc : ConfChange) : Option ClusterError :=
  if rm.contains cc.NodeID then some .ErrIDRemoved
  else
    match cc.typ with
    | .AddNode =>
        if (assocFind ms cc.NodeID).isSome then some .ErrIDExists
        else if cc.context.PeerURLs.any
            (fun u => ms.any (fun p => p.2.PeerURLs.contains u)) then
          some .ErrPeerURLexists
        else none
    | .RemoveNode =>
        if (assocFind ms cc.NodeID).isNone then some .ErrIDNotFound else none
    | .UpdateNode =>
        if (assocFind ms cc.NodeID).isNone then some .ErrIDNotFound
        else if cc.context.PeerURLs.any
            (fun u => (ms.filter (fun p => p.2.ID != cc.NodeID)).any
              (fun p => p.2.PeerURLs.contains u)) then
          some .ErrPeerURLexists
        else none

/-- `Cluster.AddMember` from the source: unconditionally create the
member's `raftAttributes` key in the store (a failing create is a fatal
assertion, modelled as `none`), then update cache, transport and index only
when `index > c.index`. -/
def AddMember (c : Cluster) (m : Member) (index : Nat) : Option Cluster :=
  if (assocFind c.store.members m.ID).isSome then none
  else
    let st : Store :=
      { members := (m.ID, m) :: c.store.members
        removed := c.store.removed
        writes := c.store.writes ++ [.createRaftAttributes m.ID m.PeerURLs] }
    if c.index < index then
      some { c with store := st
                    members := (m.ID, m) :: c.members
                    transport := c.transport ++ [.addPeer m.ID m.PeerURLs]
                    index := index }
    else
      some { c with store := st }

/-- `Cluster.RemoveMember` from the source: unconditionally delete the
member key and create the tombstone in the store (failures of either are
fatal assertions), then update cache, transport and index only when
`index > c.index` (where a missing cache entry is itself a fatal
assertion). -/
def RemoveMember (c : Cluster) (id : Nat) (index : Nat) : Option Cluster :=
  if (assocFind c.store.members id).isNone then none
  else if c.store.removed.contains id then none
  else
    let st : Store :=
      { members := eraseKey c.store.members id
        removed := id :: c.store.removed
        writes := c.store.writes ++ [.deleteMemberKey id, .createRemovedKey id] }
    if c.index < index then
      if (assocFind c.members id).isNone then none
      else
        some { c with store := st
                      members := eraseKey c.members id
                      removed := id :: c.removed
                      transport := c.transport ++ [.removePeer id]
                      index := index }
    else
      some { c with store := st }

/-- `Cluster.UpdateRaftAttributes` from the source: unconditionally update
the member's `raftAttributes` key in the store (a failing update is a fatal
assertion), then update cache, transport and index only when
`index > c.index` (dereferencing a missing cache entry is a crash). -/
def UpdateRaftAttributes (c : Cluster) (id : Nat) (peerURLs : List String)
    (index : Nat) : Option Cluster :=
  if (assocFind c.store.members id).isNone then none
  else
    let st : Store :=
      { members := updateKey c.store.members id
          (fun m => { m with PeerURLs := peerURLs })
        removed := c.store.removed
        writes := c.store.writes ++ [.updateRaftAttributes id peerURLs] }
    if c.index < index then
      if (assocFind c.members id).isNone then none
      else
        some { c with store := st
                      members := updateKey c.members id
                        (fun m => { m with PeerURLs := peerURLs })
                      transport := c.transport ++ [.updatePeer id peerURLs]
                      index := index }
    else
      some { c with store := st }

/-- `Cluster.IsIDRemoved`: membership of the in-memory removed cache. -/
def IsIDRemoved (c : Cluster) (id : Nat) : Bool := c.removed.contains id

/-! ### SHA-1 and `genID` -/

/-- Truncation to a 32-bit word. -/
def w32 (x : Nat) : Nat := x % 4294967296

/-- 32-bit left rotation (`n < 32`, inputs below `2^32`). -/
def rotl (n x : Nat) : Nat := w32 ((x <<< n) ||| (x >>> (32 - n)))

/-- Big-endian bytes of a 32-bit word. -/
def be32 (x : Nat) : List Nat :=
  [(x >>> 24) % 256, (x >>> 16) % 256, (x >>> 8) % 256, x % 256]

/-- Big-endian bytes of a 64-bit word (`binary.BigEndian.PutUint64`). -/
def be64 (x : Nat) : List Nat :=
  [(x >>> 56) % 256, (x >>> 48) % 256, (x >>> 40) % 256, (x >>> 32) % 256,
   (x >>> 24) % 256, (x >>> 16) % 256, (x >>> 8) % 256, x % 256]

/-- Big-endian read of a byte list (`binary.BigEndian.Uint64` reads 8
bytes). -/
def beRead (l : List Nat) : Nat := l.foldl (fun a b => a * 256 + b) 0

/-- SHA-1 padding: `0x80`, zero bytes up to 56 mod 64, then the bit length
as 8 big-endian bytes. -/
def sha1pad (msg : List Nat) : List Nat :=
  msg ++ [128] ++ List.replicate ((64 + 55 - msg.length % 64) % 64) 0 ++
    be64 (8 * msg.length)

/-- SHA-1 message schedule: expand 16 words to 80. -/
def sha1schedule (w16 : List Nat) : List Nat :=
  (List.range 64).foldl
    (fun w i => w ++ [rotl 1 ((w.getD (i + 13) 0) ^^^ (w.getD (i + 8) 0) ^^^
      (w.getD (i + 2) 0) ^^^ (w.getD i 0))])
    w16

/-- SHA-1 round function. -/
def sha1f (t b c d : Nat) : Nat :=
  if t < 20 then (b &&& c) ||| ((4294967295 ^^^ b) &&& d)
  else if t < 40 then b ^^^ c ^^^ d
  else if t < 60 then (b &&& c) ||| (b &&& d) ||| (c &&& d)
  else b ^^^ c ^^^ d

/-- SHA-1 round constants. -/
def sha1k (t : Nat) : Nat :=
  if t < 20 then 1518500249
  else if t < 40 then 1859775393
  else if t < 60 then 2400959708
  else 3395469782

/-- Compress one 64-byte chunk into the running 5-word state. -/
def sha1chunk (h : Nat × Nat × Nat × Nat × Nat) (chunk : List Nat) :
    Nat × Nat × Nat × Nat × Nat :=
  let w16 := (List.range 16).map (fun j => beRead ((chunk.drop (4 * j)).take 4))
  let w := sha1schedule w16
  let r := (List.range 80).foldl
    (fun s t =>
      match s with
      | (a, b, c, d, e) =>
          (w32 (rotl 5 a + sha1f t b c d + e + sha1k t + w.getD t 0),
            a, rotl 30 b, c, d))
    h
  match h, r with
  | (a0, b0, c0, d0, e0), (a, b, c, d, e) =>
      (w32 (a0 + a), w32 (b0 + b), w32 (c0 + c), w32 (d0 + d), w32 (e0 + e))

/-- The 64-byte chunks of a padded message. -/
def chunksOf (msg : List Nat) : List (List Nat) :=
  (List.range (msg.length / 64)).map (fun i => (msg.drop (64 * i)).take 64)

/-- SHA-1 digest (20 bytes) of a byte list (`crypto/sha1.Sum`). -/
def sha1 (msg : List Nat) : List Nat :=
  let r := (chunksOf (sha1pad msg)).foldl sha1chunk
    (1732584193, 4023233417, 2562383102, 271733878, 3285377520)
  match r with
  | (a, b, c, d, e) => be32 a ++ be32 b ++ be32 c ++ be32 d ++ be32 e

/-- Ascending insertion into a sorted list. -/
def insertAsc (x : Nat) : List Nat → List Nat
  | [] => [x]
  | y :: ys => if x ≤ y then x :: y :: ys else y :: insertAsc x ys

/-- Ascending sort (`sort.Sort(types.IDSlice(ids))`). -/
def sortAsc (l : List Nat) : List Nat := l.foldr insertAsc []

/-- `Cluster.MemberIDs`: the ids of all cached members, sorted ascending. -/
def MemberIDs (c : Cluster) : List Nat :=
  sortAsc (c.members.map (fun p => p.2.ID))

/-- `binary.BigEndian.PutUint64(b[off:], id)`: splice 8 big-endian bytes
into the buffer at offset `off`. -/
def putUint64 (b : List Nat) (off : Nat) (id : Nat) : List Nat :=
  b.take off ++ be64 id ++ b.drop (off + 8)

/-- The byte buffer `genID` builds: an `8*n`-byte buffer with the `i`-th
sorted member ID written at offset `8*i`. -/
def genIDBytes (ids : List Nat) : List Nat :=
  (List.range ids.length).foldl
    (fun b i => putUint64 b (8 * i) (ids.getD i 0))
    (List.replicate (8 * ids.length) 0)

/-- `Cluster.genID` from the source: SHA-1 the buffer of sorted member IDs
and read the first 8 digest bytes big-endian. -/
def genID (c : Cluster) : Nat :=
  beRead ((sha1 (genIDBytes (MemberIDs c))).take 8)

/-- Cluster-ID computation as the spec words it: concatenate the member IDs
sorted ascending, each encoded 64-bit big-endian; SHA-1; first 8 bytes read
big-endian. -/
def genIDSpec (c : Cluster) : Nat :=
  beRead ((sha1 (((sortAsc (c.members.map (fun p => p.2.ID))).map
    be64).flatten)).take 8)

/-! ### The apply engine -/

/-- The payload of a raft log entry. -/
inductive EntryData where
  | normal (r : Request)
  | confChange (cc : ConfChange)
  deriving DecidableEq

/-- `raftpb.Entry`, restricted to what the apply path reads. -/
structure Entry where
  Index : Nat
  Term : Nat
  data : EntryData
  deriving DecidableEq

/-- Observable state of the apply engine: the applied-index cursor and the
traces of effects handed to the store and to the membership machinery. -/
structure ApplyState where
  appliedi : Nat
  storeTrace : List RequestEffect
  confTrace : List ConfChange
  deriving DecidableEq

/-- One iteration of the entry loop in `EtcdServer.apply`: a normal entry
runs `applyRequest` against the store (and the result is handed to
`w.Trigger`), a conf-change entry runs the conf-change path; in both cases
`applied` becomes the entry's index. -/
def applyStep (acc : Nat × ApplyState) (e : Entry) : Nat × ApplyState :=
  match e.data with
  | .normal req =>
      (e.Index,
        { acc.2 with storeTrace := acc.2.storeTrace ++ [applyRequest req] })
  | .confChange cc =>
      (e.Index, { acc.2 with confTrace := acc.2.confTrace ++ [cc] })

/-- `EtcdServer.apply` from the source: execute the entries in order,
remembering the index of the last entry in `applied`, which starts at 0. -/
def sApply (st : ApplyState) (es : List Entry) : ApplyState :=
  let r := es.foldl applyStep (0, st)
  { r.2 with appliedi := r.1 }

/-- The entry-handling step of `EtcdServer.run`: an empty batch is left
alone; otherwise panic (`none`) when the batch starts past `appliedi + 1`,
and otherwise drop the already-applied prefix and run `EtcdServer.apply`
on the remainder (the source calls `apply` even when the remainder is
empty, so `appliedi` is then overwritten with `apply`'s zero). -/
def applyEntriesBatch (st : ApplyState) (es : List Entry) :
    Option ApplyState :=
  match es with
  | [] => some st
  | e0 :: _ =>
      if st.appliedi + 1 < e0.Index then none
      else
        let ents :=
          if st.appliedi + 1 - e0.Index < es.length then
            es.drop (st.appliedi + 1 - e0.Index)
          else []
        some (sApply st ents)

/-- Entry indices are consecutive starting at `n` (raft's guarantee for
`CommittedEntries`). -/
def consecFrom : Nat → List Entry → Bool
  | _, [] => true
  | n, e :: rest => (e.Index == n) && consecFrom (n + 1) rest

/-- The store effects of one entry: a normal entry contributes its
`applyRequest` effect, a conf-change entry none. -/
def entryStoreFx (e : Entry) : List RequestEffect :=
  match e.data with
  | .normal r => [applyRequest r]
  | .confChange _ => []

/-- The conf-change effects of one entry. -/
def entryConfFx (e : Entry) : List ConfChange :=
  match e.data with
  | .normal _ => []
  | .confChange cc => [cc]

/-- The `applied` accumulator of `EtcdServer.apply`: the index of the last
entry, or the seed when there is none. -/
def lastIdxD (a : Nat) (es : List Entry) : Nat :=
  es.foldl (fun _ e => e.Index) a

/-! ### Snapshot and compaction -/

/-- `numberOfCatchUpEntries` from the source. -/
def numberOfCatchUpEntries : Nat := 5000

/-- Result of `raftStorage.CreateSnapshot`. -/
inductive CreateSnapResult where
  | ok
  | errSnapOutOfDate
  | errOther
  deriving DecidableEq

/-- Result of `storage.SaveSnap`. -/
inductive SaveSnapResult where
  | ok
  | errOther
  deriving DecidableEq

/-- Result of `raftStorage.Compact`. -/
inductive CompactResult where
  | ok
  | errCompacted
  | errOther
  deriving DecidableEq

/-- Observable outcome of the goroutine body of `EtcdServer.snapshot`. -/
inductive SnapshotOutcome where
  | compacted (compacti : Nat)
  | silentReturn
  | fatal
  deriving DecidableEq

/-- `EtcdServer.snapshot` from the source, as a function of `snapi` and of
the results the storage layer returns for `CreateSnapshot`, `SaveSnap` and
`Compact`: `ErrSnapOutOfDate` and `ErrCompacted` return silently, other
errors are fatal, and on success the log is compacted at
`snapi - numberOfCatchUpEntries` (at 1 when `snapi` is not above the
catch-up window). -/
def snapshotStep (snapi : Nat) (cr : CreateSnapResult) (sv : SaveSnapResult)
    (cp : CompactResult) : SnapshotOutcome :=
  match cr with
  | .errSnapOutOfDate => .silentReturn
  | .errOther => .fatal
  | .ok =>
      match sv with
      | .errOther => .fatal
      | .ok =>
          let compacti :=
            if numberOfCatchUpEntries < snapi then
              snapi - numberOfCatchUpEntries
            else 1
          match cp with
          | .errCompacted => .silentReturn
          | .errOther => .fatal
          | .ok => .compacted compacti

/-! ### Message filtering in `send` -/

/-- `raftpb.Message`, as its `To` field plus the rest of the message
(opaque). -/
structure Message where
  To : Nat
  rest : Nat
  deriving DecidableEq

/-- `EtcdServer.send` from the source: zero the `To` field of messages
addressed to removed members; the returned list is exactly the batch that
is then handed to `transport.Send`. -/
def send (c : Cluster) (ms : List Message) : List Message :=
  ms.map (fun m => if IsIDRemoved c m.To then { m with To := 0 } else m)

/-! ### The await phase of `Do` -/

/-- Which `select` branch fires while `Do` awaits a proposed request: the
registered channel yields a value, the context is cancelled, or the
server's `done` channel closes. -/
inductive AwaitEvent where
  | response (x : Option Nat)
  | ctxDone
  | serverStopped
  deriving DecidableEq

/-- The errors the await phase of `Do` maps its non-response branches to. -/
inductive DoError where
  | canceled
  | stopped
  deriving DecidableEq

/-- The propose-and-await path of `EtcdServer.Do` (POST, PUT, DELETE,
QGET), from `Register` onwards: returns the final registry state and the
error, if any.  Channel values are `Option Nat`: `none` is Go's `nil`,
`some x` an actual response. -/
def doAwait (w : wait.WaitState (Option Nat)) (id : Nat) (ev : AwaitEvent) :
    wait.WaitState (Option Nat) × Option DoError :=
  let r := wait.Register w id
  match ev with
  | .response _ => (r.2, none)
  | .ctxDone => (wait.Trigger r.2 id none, some .canceled)
  | .serverStopped => (r.2, some .stopped)

/-! ### Concrete fixtures used to instantiate theorems with hypotheses -/

/-- A `PUT` request against a genuine member-attributes path. -/
def rPut : Request :=
  ⟨0, "PUT", "/0/members/ab/attributes", "v", false, none, 0, "", 0,
    false, false, false, false, 0⟩

/-- A cluster whose removed cache holds id 3 (other fields empty). -/
def cW : Cluster := ⟨0, [], [3], 0, ⟨[], [], []⟩, []⟩

/-- An empty cluster at index 0. -/
def cEmpty : Cluster := ⟨0, [], [], 0, ⟨[], [], []⟩, []⟩

/-- A fixture member with id 5. -/
def m5 : Member := ⟨5, ["http://a:2380"], "n0", []⟩

/-- The cluster `AddMember cEmpty m5 1` produces. -/
def cAdd : Cluster :=
  ⟨0, [(5, m5)], [], 1,
    ⟨[(5, m5)], [], [.createRaftAttributes 5 ["http://a:2380"]]⟩,
    [.addPeer 5 ["http://a:2380"]]⟩

/-- The cluster `UpdateRaftAttributes cAdd 5 ["http://b:2380"] 1`
produces (a stale index: only the store changes). -/
def cUpd : Cluster :=
  ⟨0, [(5, m5)], [], 1,
    ⟨[(5, ⟨5, ["http://b:2380"], "n0", []⟩)], [],
      [.createRaftAttributes 5 ["http://a:2380"],
       .updateRaftAttributes 5 ["http://b:2380"]]⟩,
    [.addPeer 5 ["http://a:2380"]]⟩

/-- A fixture log entry at index 3 carrying a normal request. -/
def eW : Entry := ⟨3, 1, .normal rPut⟩

/-- The cluster `RemoveMember cAdd 5 2` produces. -/
def cRem : Cluster :=
  ⟨0, [], [5], 2,
    ⟨[], [5],
      [.createRaftAttributes 5 ["http://a:2380"], .deleteMemberKey 5,
       .createRemovedKey 5]⟩,
    [.addPeer 5 ["http://a:2380"], .removePeer 5]⟩

end Etcd

/-! ## Lemmas and theorems -/

namespace Etcd

theorem assocFind_mem {β : Type} {l : List (Nat × β)} {k : Nat} {v : β}
    (h : assocFind l k = some v) : (k, v) ∈ l := by
  induction l with
  | nil => simp [assocFind] at h
  | cons p rest ih =>
      by_cases hk : p.1 = k
      · simp only [assocFind, if_pos hk] at h
        injection h with h2
        have hpv : (k, v) = p := by
          rw [← hk, ← h2]
        rw [hpv]
        exact List.mem_cons_self _ _
      · simp only [assocFind, if_neg hk] at h
        exact List.mem_cons_of_mem _ (ih h)

theorem assocFind_eq_none {β : Type} {l : List (Nat × β)} {k : Nat}
    (h : assocFind l k = none) : k ∉ l.map Prod.fst := by
  induction l with
  | nil => simp
  | cons p rest ih =>
      by_cases hk : p.1 = k
      · simp [assocFind, if_pos hk] at h
      · simp only [assocFind, if_neg hk] at h
        simp only [List.map_cons, List.mem_cons]
        rintro (h1 | h2)
        · exact hk h1.symm
        · exact ih h h2

theorem assocFind_eraseKey_self {β : Type} (l : List (Nat × β)) (k : Nat) :
    assocFind (eraseKey l k) k = none := by
  induction l with
  | nil => rfl
  | cons p rest ih =>
      by_cases hk : p.1 = k
      · have hb : (p.1 != k) = false := by simp [hk]
        simpa [eraseKey, List.filter_cons, hb] using ih
      · have hb : (p.1 != k) = true := by simp [hk]
        simpa [eraseKey, List.filter_cons, hb, assocFind, hk] using ih

theorem assocFind_updateKey {β : Type} (l : List (Nat × β)) (k : Nat)
    (f : β → β) (k2 : Nat) :
    assocFind (updateKey l k f) k2 =
      if k2 = k then (assocFind l k).map f else assocFind l k2 := by
  induction l with
  | nil => by_cases h : k2 = k <;> simp [updateKey, assocFind, h]
  | cons p rest ih =>
      simp only [updateKey, List.map_cons] at *
      by_cases hp : p.1 = k
      · simp only [if_pos hp]
        by_cases h2 : k2 = k
        · subst h2
          simp [assocFind, hp, ih]
        · have h3 : ¬ p.1 = k2 := by rw [hp]; exact fun hc => h2 hc.symm
          simp [assocFind, h3, ih, h2]
      · simp only [if_neg hp]
        by_cases hpk2 : p.1 = k2
        · have h2 : ¬ k2 = k := by rw [← hpk2]; exact hp
          simp [assocFind, hpk2, h2]
        · simp [assocFind, hp, hpk2, ih]

theorem updateKey_map_fst {β : Type} (l : List (Nat × β)) (k : Nat)
    (f : β → β) : (updateKey l k f).map Prod.fst = l.map Prod.fst := by
  induction l with
  | nil => rfl
  | cons p rest ih =>
      by_cases hp : p.1 = k <;> simp [updateKey, hp] at ih ⊢ <;> exact ih

theorem mem_updateKey {β : Type} {l : List (Nat × β)} {k : Nat} {f : β → β}
    {q : Nat × β} (h : q ∈ updateKey l k f) :
    q.1 ∈ l.map Prod.fst := by
  rcases List.mem_map.1 h with ⟨p, hp, he⟩
  have hq : q.1 = p.1 := by
    by_cases hpk : p.1 = k
    · rw [← he]; simp [hpk]
    · rw [← he]; simp [hpk]
  rw [hq]
  exact List.mem_map_of_mem Prod.fst hp

theorem mem_eraseKey {β : Type} {l : List (Nat × β)} {k : Nat}
    {q : Nat × β} (h : q ∈ eraseKey l k) : q ∈ l ∧ q.1 ≠ k := by
  have h2 := List.of_mem_filter h
  refine ⟨List.mem_of_mem_filter h, ?_⟩
  simpa using h2

namespace idutil

theorem lowbit_suffixLen (x : Nat) : lowbit x suffixLen = x % U56 := by
  have h : (18446744073709551615 : Nat) >>> (64 - suffixLen) = 2 ^ 56 - 1 := by
    decide
  rw [lowbit, h, U56]
  exact Nat.and_pow_two_sub_one_eq_mod x 56

theorem after_sfx (g : Generator) (n : Nat) :
    (g.after n).sfx % U64 = (g.sfx + n) % U64 := by
  induction n with
  | zero => simp [Generator.after]
  | succ k ih =>
      show ((g.after k).sfx + 1) % U64 % U64 = (g.sfx + (k + 1)) % U64
      rw [Nat.mod_mod, show g.sfx + (k + 1) = g.sfx + k + 1 by omega,
        Nat.add_mod ((g.after k).sfx) 1, Nat.add_mod (g.sfx + k) 1, ih]

theorem after_pfx (g : Generator) (n : Nat) : (g.after n).pfx = g.pfx := by
  induction n with
  | zero => rfl
  | succ k ih =>
      show (((g.after k).Next).2).pfx = g.pfx
      simpa [Generator.Next] using ih

/-- Closed form of the `n`-th generated ID. -/
theorem idAt_closed (g : Generator) (n : Nat) :
    g.idAt n = g.pfx ||| ((g.sfx + n + 1) % U56) := by
  have h56 : U56 ∣ U64 := pow_dvd_pow 2 (by norm_num)
  have ha : (g.after n).sfx % U56 = (g.sfx + n) % U56 := by
    rw [← Nat.mod_mod_of_dvd _ h56, after_sfx, Nat.mod_mod_of_dvd _ h56]
  show (g.after n).pfx ||| lowbit (((g.after n).sfx + 1) % U64) suffixLen
      = g.pfx ||| ((g.sfx + n + 1) % U56)
  rw [lowbit_suffixLen, after_pfx]
  congr 1
  rw [Nat.mod_mod_of_dvd _ h56, Nat.add_mod ((g.after n).sfx) 1, ha, ← Nat.add_mod]

end idutil

namespace wait

theorem inv_initial {α : Type} : INV (initial α) := by
  constructor <;> simp [initial, assocFind]

theorem inv_register {α : Type} (w : WaitState α) (id : Nat) (h : INV w) :
    INV (Register w id).2 := by
  cases hf : assocFind w.m id with
  | some c =>
      have he : (Register w id).2 = w := by simp [Register, hf]
      rw [he]; exact h
  | none =>
      have he : (Register w id).2 =
          ⟨(id, w.nextCh) :: w.m, (w.nextCh, ⟨[], false⟩) :: w.chans,
            w.nextCh + 1⟩ := by
        simp [Register, hf]
      rw [he]
      obtain ⟨mK, mV, cK, mL, cL, rg⟩ := h
      constructor
      · simp only [List.map_cons]
        exact List.nodup_cons.2 ⟨assocFind_eq_none hf, mK⟩
      · simp only [List.map_cons]
        refine List.nodup_cons.2 ⟨?_, mV⟩
        intro hc
        rcases List.mem_map.1 hc with ⟨p, hp, he2⟩
        exact (Nat.ne_of_lt (mL p hp)) he2
      · simp only [List.map_cons]
        refine List.nodup_cons.2 ⟨?_, cK⟩
        intro hc
        rcases List.mem_map.1 hc with ⟨p, hp, he2⟩
        exact (Nat.ne_of_lt (cL p hp)) he2
      · intro p hp
        rcases List.mem_cons.1 hp with h1 | h2
        · rw [h1]; exact Nat.lt_succ_self _
        · exact Nat.lt_succ_of_lt (mL p h2)
      · intro p hp
        rcases List.mem_cons.1 hp with h1 | h2
        · rw [h1]; exact Nat.lt_succ_self _
        · exact Nat.lt_succ_of_lt (cL p h2)
      · intro p hp
        rcases List.mem_cons.1 hp with h1 | h2
        · rw [h1]; simp [assocFind]
        · have hne : w.nextCh ≠ p.2 := (Nat.ne_of_lt (mL p h2)).symm
          simp [assocFind, hne, rg p h2]

theorem inv_trigger {α : Type} (w : WaitState α) (id : Nat) (x : α)
    (h : INV w) : INV (Trigger w id x) := by
  cases hf : assocFind w.m id with
  | none =>
      have he : Trigger w id x = w := by simp [Trigger, hf]
      rw [he]; exact h
  | some c =>
      have he : Trigger w id x =
          ⟨eraseKey w.m id,
            updateKey w.chans c (fun st => ⟨st.sent ++ [x], true⟩),
            w.nextCh⟩ := by
        simp [Trigger, hf]
      rw [he]
      obtain ⟨mK, mV, cK, mL, cL, rg⟩ := h
      have hmem : (id, c) ∈ w.m := assocFind_mem hf
      constructor
      · exact List.Nodup.sublist ((List.filter_sublist _).map _) mK
      · exact List.Nodup.sublist ((List.filter_sublist _).map _) mV
      · rw [updateKey_map_fst]; exact cK
      · intro p hp
        exact mL p (mem_eraseKey hp).1
      · intro p hp
        have hp2 : p ∈ updateKey w.chans c (fun st => ⟨st.sent ++ [x], true⟩) := hp
        rcases List.mem_map.1 (mem_updateKey hp2) with ⟨q, hq, he2⟩
        rw [← he2]
        exact cL q hq
      · intro p hp
        obtain ⟨hpm, hpne⟩ := mem_eraseKey hp
        have hpc : ¬ p.2 = c := by
          intro hcc
          have hinj := List.inj_on_of_nodup_map mV
          have hpe : p = (id, c) := hinj hpm hmem (by rw [hcc])
          exact hpne (by rw [hpe])
        rw [assocFind_updateKey]
        simp [hpc, rg p hpm]

theorem inv_reach {α : Type} {w : WaitState α} (h : Reach α w) : INV w := by
  induction h with
  | init => exact inv_initial
  | register w id _ ih => exact inv_register w id ih
  | trigger w id x _ ih => exact inv_trigger w id x ih

theorem register_find {α : Type} (w : WaitState α) (id : Nat) :
    assocFind (Register w id).2.m id = some (Register w id).1 := by
  cases hf : assocFind w.m id with
  | some c => simp [Register, hf]
  | none => simp [Register, hf, assocFind]

theorem triggerBlocks_false {α : Type} (w : WaitState α) (hw : INV w)
    (id : Nat) : TriggerBlocks w id = false := by
  cases hf : assocFind w.m id with
  | none => simp [TriggerBlocks, hf]
  | some c =>
      have hc := hw.reg _ (assocFind_mem hf)
      simp [TriggerBlocks, hf, hc]

end wait

/-! ### Regexp lemmas (claim C1) -/

theorem isPrefixOf_self {l : List Char} : l.isPrefixOf l = true := by
  induction l with
  | nil => rfl
  | cons c rest ih => simp [List.isPrefixOf, ih]

theorem matchAttrFull_from {s : List Char} (h : matchAttrFull s = true) :
    matchAttrFrom s = true := by
  simp only [matchAttrFull, matchAttrFrom, Bool.and_eq_true,
    List.any_eq_true, decide_eq_true_eq] at h ⊢
  obtain ⟨h1, i, hi, ⟨ha, hb⟩, hc⟩ := h
  refine ⟨h1, i, hi, ⟨ha, hb⟩, ?_⟩
  rw [hc]
  exact isPrefixOf_self

theorem matchAttrFrom_search {s : List Char} (h : matchAttrFrom s = true) :
    searchAttr s = true := by
  cases s with
  | nil => exact h
  | cons c rest => simp [searchAttr, h]

/-! ### Flatten/contains lemma (claim C4) -/

theorem contains_flatten_map {α : Type} (l : List α) (f : α → List String)
    (u : String) :
    ((l.map f).flatten).contains u = l.any (fun a => (f a).contains u) := by
  induction l with
  | nil => rfl
  | cons a rest ih =>
      simp only [List.map_cons, List.flatten_cons]
      rw [List.contains_eq_any_beq, List.any_append,
        ← List.contains_eq_any_beq, ← List.contains_eq_any_beq, ih,
        List.any_cons]

/-! ### High/low bit split (claim C7) -/

theorem lor_high_low (q x : Nat) (hx : x < 2 ^ 56) :
    (q <<< 56) ||| x = 2 ^ 56 * q + x := by
  apply Nat.eq_of_testBit_eq
  intro i
  rw [Nat.testBit_lor, Nat.testBit_shiftLeft, Nat.testBit_mul_pow_two_add q hx]
  by_cases h : i < 56
  · have h2 : ¬ (56 ≤ i) := by omega
    simp [h, h2]
  · have h2 : 56 ≤ i := by omega
    have h3 : x.testBit i = false :=
      Nat.testBit_lt_two_pow
        (lt_of_lt_of_le hx (Nat.pow_le_pow_right (by norm_num) h2))
    simp [h, h2, h3]

/-! ### Claim theorems -/

/-- C1 (counterexample): the regexp the code compiles is unanchored (Go's
`MatchString` searches), so a `PUT` whose path merely contains
`/0/members/<hex>/attributes` — here `/1/0/members/a/attributes`, an
ordinary user key under the keys prefix — also triggers the
`Cluster.UpdateAttributes` side effect, while the claim's decision table
(path matches `/0/members/<hex id>/attributes`) prescribes a plain `Set`
with no attributes update. -/
theorem claim_C1_cex :
    ¬ (∀ r : Request, r.Method = "PUT" → applyRequest r = putTableSpec r) := by
  intro h
  have h2 := h ⟨0, "PUT", "/1/0/members/a/attributes", "v", false, none, 0,
    "", 0, false, false, false, false, 0⟩ rfl
  revert h2
  decide

/-- C1 (amended): `applyRequest` maps a `PUT` to the store operation of the
claim's decision table — `PrevExist=true` with no preconditions → `Update`;
`PrevExist=true` with a precondition → `CompareAndSwap`; `PrevExist=false`
→ `Create(unique=false)`; `PrevExist` unset with `PrevIndex>0` or nonempty
`PrevValue` → `CompareAndSwap`; else `Set` — where the extra
`Cluster.UpdateAttributes` call before the `Set` fires whenever the path
CONTAINS a substring matching `/0/members/<hex id>/attributes` (the
compiled regexp is unanchored); in particular every path that IS exactly of
that form does trigger it. -/
theorem claim_C1 (r : Request) (h : r.Method = "PUT") :
    applyRequest r = putTableAmended r ∧
    (∀ p, isMemberAttributesPath p = true →
      storeMemberAttributeMatch p = true) := by
  constructor
  · obtain ⟨id, mth, path, val, dir, pe, pi, pv, ex, rec, srt, q, wt, t⟩ := r
    have h2 : mth = "PUT" := h
    subst h2
    rfl
  · intro p hp
    exact matchAttrFrom_search (matchAttrFull_from hp)

/-- C1 (witness): the theorem applied to a concrete `PUT` against a genuine
member-attributes path. -/
theorem claim_C1_witness :
    applyRequest rPut = putTableAmended rPut ∧
    storeMemberAttributeMatch "/0/members/ab/attributes" = true :=
  ⟨(claim_C1 rPut rfl).1,
   (claim_C1 rPut rfl).2 "/0/members/ab/attributes" (by decide)⟩

/-- C4: `ValidateConfigurationChange` recomputes membership from the
persisted store — its result is invariant under arbitrary changes to the
in-memory caches, the index, the cluster id and the transport — and
returns exactly the spec's decision table over the persisted membership:
`ErrIDRemoved` for tombstoned ids, else `ErrIDExists` on `AddNode` for live
ids, `ErrIDNotFound` on `RemoveNode`/`UpdateNode` for non-live ids,
`ErrPeerURLexists` on a PeerURL collision with a live member (own URLs
excluded for `UpdateNode`), `none` otherwise. -/
theorem claim_C4 (c : Cluster) (cc : ConfChange) :
    ValidateConfigurationChange c cc =
      validateSpec c.store.members c.store.removed cc ∧
    (∀ id2 ms2 rm2 idx2 tr2,
      ValidateConfigurationChange
        ⟨id2, ms2, rm2, idx2, c.store, tr2⟩ cc =
      ValidateConfigurationChange c cc) := by
  constructor
  · obtain ⟨ccid, typ, nid, ctx⟩ := cc
    cases typ <;>
      simp only [ValidateConfigurationChange, validateSpec, membersFromStore,
        contains_flatten_map]
  · intro id2 ms2 rm2 idx2 tr2
    rfl

/-- C7 (counterexample): the combined 7-byte suffix wraps modulo `2^56`,
so the claim that every pair of distinct `Next` calls in one process
lifetime yields distinct IDs is false: call 0 and call `2^56` of the
generator seeded with member byte 0 at time 0 return the same ID. -/
theorem claim_C7_cex :
    ¬ (∀ (g : idutil.Generator) (m n : Nat), m ≠ n →
        g.idAt m ≠ g.idAt n) := by
  intro h
  apply h ⟨0, 0⟩ 0 U56 (by decide)
  rw [idutil.idAt_closed, idutil.idAt_closed]
  decide

/-- C7 (amended): each `Next` call increments the combined low 7 bytes
modulo `2^56` (counter overflow rippling into the timestamp field) and ors
in the fixed member byte as the high byte, so the `n`-th ID is
`2^56 * memberByte + (sfx0 + n + 1) mod 2^56`; any two distinct calls among
the first `2^56` return distinct IDs (repetition can occur only once the
56-bit suffix wraps). -/
theorem claim_C7 (memberID ms m n : Nat) (hm : m < U56) (hn : n < U56)
    (hne : m ≠ n) :
    (idutil.NewGenerator memberID ms).idAt m ≠
      (idutil.NewGenerator memberID ms).idAt n ∧
    (∀ k, (idutil.NewGenerator memberID ms).idAt k =
      2 ^ 56 * (memberID % 256) +
        (((idutil.NewGenerator memberID ms).sfx + k + 1) % U56)) ∧
    (∀ k, (idutil.NewGenerator memberID ms).idAt k / 2 ^ 56 =
      memberID % 256) := by
  have hcf : ∀ k, (idutil.NewGenerator memberID ms).idAt k =
      2 ^ 56 * (memberID % 256) +
        (((idutil.NewGenerator memberID ms).sfx + k + 1) % U56) := by
    intro k
    rw [idutil.idAt_closed]
    have hx : ((idutil.NewGenerator memberID ms).sfx + k + 1) % U56 < 2 ^ 56 := by
      have : 0 < U56 := by decide
      simpa [U56] using Nat.mod_lt _ this
    exact lor_high_low (memberID % 256) _ hx
  have hU : U56 = 72057594037927936 := by decide
  refine ⟨?_, hcf, ?_⟩
  · intro heq
    rw [hcf m, hcf n] at heq
    have h2 : ((idutil.NewGenerator memberID ms).sfx + m + 1) % U56 =
        ((idutil.NewGenerator memberID ms).sfx + n + 1) % U56 := by omega
    rw [hU] at h2 hm hn
    omega
  · intro k
    rw [hcf k]
    have hx : ((idutil.NewGenerator memberID ms).sfx + k + 1) % U56 < 2 ^ 56 := by
      have : 0 < U56 := by decide
      simpa [U56] using Nat.mod_lt _ this
    rw [Nat.mul_add_div (by norm_num : 0 < 2 ^ 56), Nat.div_eq_of_lt hx]
    omega

/-- C7 (witness): the amended theorem applied to member byte 1, start time
0, call ordinals 0 and 1. -/
theorem claim_C7_witness :
    (idutil.NewGenerator 1 0).idAt 0 ≠ (idutil.NewGenerator 1 0).idAt 1 ∧
    (idutil.NewGenerator 1 0).idAt 0 / 2 ^ 56 = 1 % 256 :=
  ⟨(claim_C7 1 0 0 1 (by decide) (by decide) (by decide)).1,
   (claim_C7 1 0 0 1 (by decide) (by decide) (by decide)).2.2 0⟩

/-- C8: after a snapshot at `snapi`, the in-memory raft log is compacted at
`snapi - 5000` when `snapi > 5000` and at 1 otherwise — so at most the last
`numberOfCatchUpEntries` entries below `snapi` survive — while
`ErrSnapOutOfDate` from `CreateSnapshot` and `ErrCompacted` from `Compact`
return silently and any other error of those calls is fatal. -/
theorem claim_C8 (snapi : Nat) :
    snapshotStep snapi .ok .ok .ok =
      .compacted (if numberOfCatchUpEntries < snapi then
        snapi - numberOfCatchUpEntries else 1) ∧
    snapi - (if numberOfCatchUpEntries < snapi then
      snapi - numberOfCatchUpEntries else 1) ≤ numberOfCatchUpEntries ∧
    (∀ sv cp, snapshotStep snapi .errSnapOutOfDate sv cp = .silentReturn) ∧
    (∀ sv cp, snapshotStep snapi .errOther sv cp = .fatal) ∧
    snapshotStep snapi .ok .ok .errCompacted = .silentReturn ∧
    snapshotStep snapi .ok .ok .errOther = .fatal := by
  refine ⟨rfl, ?_, fun sv cp => rfl, fun sv cp => rfl, rfl, rfl⟩
  simp only [numberOfCatchUpEntries]
  split <;> omega

/-- C9: `EtcdServer.send` preserves the length and order of the batch it
hands to `transport.Send`; each message whose `To` is in the cluster's
removed cache has `To` zeroed (rest untouched), every other message passes
through unchanged. -/
theorem claim_C9 (c : Cluster) (ms : List Message) :
    (send c ms).length = ms.length ∧
    (∀ i, i < ms.length →
      (IsIDRemoved c ((ms.getD i ⟨0, 0⟩).To) = true →
        (send c ms).getD i ⟨0, 0⟩ = ⟨0, (ms.getD i ⟨0, 0⟩).rest⟩) ∧
      (IsIDRemoved c ((ms.getD i ⟨0, 0⟩).To) = false →
        (send c ms).getD i ⟨0, 0⟩ = ms.getD i ⟨0, 0⟩)) := by
  constructor
  · exact List.length_map _ _
  · intro i hi
    cases hq : ms[i]? with
    | none =>
        rw [List.getElem?_eq_none_iff] at hq
        omega
    | some v =>
        have hd : ms.getD i ⟨0, 0⟩ = v := by
          rw [List.getD_eq_getElem?_getD, hq]
          rfl
        have hs : (send c ms).getD i ⟨0, 0⟩ =
            if IsIDRemoved c v.To then { v with To := 0 } else v := by
          rw [List.getD_eq_getElem?_getD]
          simp only [send, List.getElem?_map, hq]
          rfl
        rw [hd, hs]
        constructor
        · intro hr
          rw [hr]
          simp
        · intro hr
          rw [hr]
          simp

/-- C9 (witness): a two-message batch against a cluster whose removed cache
holds id 3: the first message is redirected to 0, the second untouched. -/
theorem claim_C9_witness :
    (send cW [⟨3, 9⟩, ⟨4, 9⟩]).length = 2 ∧
    (send cW [⟨3, 9⟩, ⟨4, 9⟩]).getD 0 ⟨0, 0⟩ = ⟨0, 9⟩ ∧
    (send cW [⟨3, 9⟩, ⟨4, 9⟩]).getD 1 ⟨0, 0⟩ = ⟨4, 9⟩ := by
  refine ⟨(claim_C9 cW [⟨3, 9⟩, ⟨4, 9⟩]).1, ?_, ?_⟩
  · have h := ((claim_C9 cW [⟨3, 9⟩, ⟨4, 9⟩]).2 0 (by decide)).1 (by decide)
    exact h.trans (by decide)
  · have h := ((claim_C9 cW [⟨3, 9⟩, ⟨4, 9⟩]).2 1 (by decide)).2 (by decide)
    exact h.trans (by decide)

/-- C10: when the await phase of `Do` ends because the server's `done`
channel closed, it returns `ErrStopped` without calling `Trigger`, so the
registered wait slot stays in the registry; the context-cancellation branch
is the one that deregisters, calling `Trigger(id, nil)` and returning the
cancellation error. -/
theorem claim_C10 (w : wait.WaitState (Option Nat)) (id : Nat) :
    ((doAwait w id .serverStopped).2 = some .stopped ∧
      assocFind (doAwait w id .serverStopped).1.m id =
        some (wait.Register w id).1) ∧
    ((doAwait w id .ctxDone).2 = some .canceled ∧
      assocFind (doAwait w id .ctxDone).1.m id = none) := by
  refine ⟨⟨rfl, wait.register_find w id⟩, rfl, ?_⟩
  show assocFind (wait.Trigger (wait.Register w id).2 id none).m id = none
  have hf := wait.register_find w id
  simp [wait.Trigger, hf, assocFind_eraseKey_self]

/-- C3: after `Register(id)` installs a slot, `Trigger(id, v)` removes the
slot from the map and delivers exactly the value `v` exactly once into the
registered receiver (the channel then holds the single value `v` and is
closed); a later `Trigger` for the same id with no intervening `Register`
finds no slot and is a no-op; and on every reachable registry the channel
send inside `Trigger` never blocks. -/
theorem claim_C3 {α : Type} (w : wait.WaitState α) (hw : wait.Reach α w)
    (id : Nat) (v : α) :
    assocFind (wait.Trigger (wait.Register w id).2 id v).m id = none ∧
    assocFind (wait.Trigger (wait.Register w id).2 id v).chans
      (wait.Register w id).1 = some ⟨[v], true⟩ ∧
    (∀ v2, wait.Trigger (wait.Trigger (wait.Register w id).2 id v) id v2 =
      wait.Trigger (wait.Register w id).2 id v) ∧
    (∀ w2, wait.Reach α w2 → ∀ id2, wait.TriggerBlocks w2 id2 = false) := by
  have hinv : wait.INV (wait.Register w id).2 :=
    wait.inv_register w id (wait.inv_reach hw)
  have hf := wait.register_find w id
  have hreg := hinv.reg _ (assocFind_mem hf)
  have htr : wait.Trigger (wait.Register w id).2 id v =
      ⟨eraseKey (wait.Register w id).2.m id,
        updateKey (wait.Register w id).2.chans (wait.Register w id).1
          (fun st => ⟨st.sent ++ [v], true⟩),
        (wait.Register w id).2.nextCh⟩ := by
    simp [wait.Trigger, hf]
  have h1 : assocFind (wait.Trigger (wait.Register w id).2 id v).m id =
      none := by
    rw [htr]
    exact assocFind_eraseKey_self _ _
  refine ⟨h1, ?_, ?_, ?_⟩
  · rw [htr]
    show assocFind (updateKey (wait.Register w id).2.chans
      (wait.Register w id).1 (fun st => ⟨st.sent ++ [v], true⟩))
      (wait.Register w id).1 = some ⟨[v], true⟩
    rw [assocFind_updateKey]
    simp only [if_pos rfl]
    rw [hreg]
    rfl
  · intro v2
    have hgen : ∀ (w3 : wait.WaitState α), assocFind w3.m id = none →
        wait.Trigger w3 id v2 = w3 := by
      intro w3 h3
      simp [wait.Trigger, h3]
    exact hgen _ h1
  · intro w2 hw2 id2
    exact wait.triggerBlocks_false w2 (wait.inv_reach hw2) id2

/-- C3 (witness): the theorem applied to the freshly created registry,
id 3, value 7. -/
theorem claim_C3_witness :
    assocFind (wait.Trigger (wait.Register (wait.initial Nat) 3).2 3 7).m 3 =
      none ∧
    assocFind (wait.Trigger (wait.Register (wait.initial Nat) 3).2 3 7).chans
      (wait.Register (wait.initial Nat) 3).1 = some ⟨[7], true⟩ ∧
    wait.TriggerBlocks (wait.initial Nat) 3 = false :=
  ⟨(claim_C3 (wait.initial Nat) wait.Reach.init 3 7).1,
   (claim_C3 (wait.initial Nat) wait.Reach.init 3 7).2.1,
   (claim_C3 (wait.initial Nat) wait.Reach.init 3 7).2.2.2
     (wait.initial Nat) wait.Reach.init 3⟩

/-- C5: `AddMember`, `RemoveMember` and `UpdateRaftAttributes`
unconditionally persist their mutation to the store whenever they return
at all (raftAttributes key created; member key deleted and tombstone
created; raftAttributes key updated), while the in-memory member and
removed caches, the transport notifications and the cluster index change
exactly when `index > c.index` and are left untouched when
`index ≤ c.index`. -/
theorem claim_C5 (c : Cluster) (m : Member) (id : Nat) (urls : List String)
    (i : Nat) :
    (∀ c2, AddMember c m i = some c2 →
      (c2.store.writes =
          c.store.writes ++ [.createRaftAttributes m.ID m.PeerURLs] ∧
        c2.store.members = (m.ID, m) :: c.store.members) ∧
      (i ≤ c.index → c2.members = c.members ∧ c2.removed = c.removed ∧
        c2.transport = c.transport ∧ c2.index = c.index) ∧
      (c.index < i → c2.members = (m.ID, m) :: c.members ∧
        c2.removed = c.removed ∧
        c2.transport = c.transport ++ [.addPeer m.ID m.PeerURLs] ∧
        c2.index = i)) ∧
    (∀ c2, RemoveMember c id i = some c2 →
      (c2.store.writes =
          c.store.writes ++ [.deleteMemberKey id, .createRemovedKey id] ∧
        c2.store.members = eraseKey c.store.members id ∧
        c2.store.removed = id :: c.store.removed) ∧
      (i ≤ c.index → c2.members = c.members ∧ c2.removed = c.removed ∧
        c2.transport = c.transport ∧ c2.index = c.index) ∧
      (c.index < i → c2.members = eraseKey c.members id ∧
        c2.removed = id :: c.removed ∧
        c2.transport = c.transport ++ [.removePeer id] ∧ c2.index = i)) ∧
    (∀ c2, UpdateRaftAttributes c id urls i = some c2 →
      (c2.store.writes = c.store.writes ++ [.updateRaftAttributes id urls] ∧
        c2.store.members = updateKey c.store.members id
          (fun mm => { mm with PeerURLs := urls })) ∧
      (i ≤ c.index → c2.members = c.members ∧ c2.removed = c.removed ∧
        c2.transport = c.transport ∧ c2.index = c.index) ∧
      (c.index < i → c2.members = updateKey c.members id
          (fun mm => { mm with PeerURLs := urls }) ∧
        c2.removed = c.removed ∧
        c2.transport = c.transport ++ [.updatePeer id urls] ∧
        c2.index = i)) := by
  refine ⟨?_, ?_, ?_⟩
  · intro c2 h
    unfold AddMember at h
    split_ifs at h with h1 h2
    · injection h with h3
      subst h3
      exact ⟨⟨rfl, rfl⟩, fun hle => absurd h2 (by omega),
        fun _ => ⟨rfl, rfl, rfl, rfl⟩⟩
    · injection h with h3
      subst h3
      exact ⟨⟨rfl, rfl⟩, fun _ => ⟨rfl, rfl, rfl, rfl⟩,
        fun hlt => absurd hlt h2⟩
  · intro c2 h
    unfold RemoveMember at h
    split_ifs at h with h1 h2 h3 h4
    · injection h with h5
      subst h5
      exact ⟨⟨rfl, rfl, rfl⟩, fun hle => absurd h3 (by omega),
        fun _ => ⟨rfl, rfl, rfl, rfl⟩⟩
    · injection h with h5
      subst h5
      exact ⟨⟨rfl, rfl, rfl⟩, fun _ => ⟨rfl, rfl, rfl, rfl⟩,
        fun hlt => absurd hlt h3⟩
  · intro c2 h
    unfold UpdateRaftAttributes at h
    split_ifs at h with h1 h2 h3
    · injection h with h5
      subst h5
      exact ⟨⟨rfl, rfl⟩, fun hle => absurd h2 (by omega),
        fun _ => ⟨rfl, rfl, rfl, rfl⟩⟩
    · injection h with h5
      subst h5
      exact ⟨⟨rfl, rfl⟩, fun _ => ⟨rfl, rfl, rfl, rfl⟩,
        fun hlt => absurd hlt h2⟩

/-- C5 (witness): the theorem applied to a concrete add (fresh index 1),
a concrete stale raft-attributes update (index 1 again: store written,
cache untouched), and a concrete remove (fresh index 2). -/
theorem claim_C5_witness :
    (cAdd.store.writes = cEmpty.store.writes ++
        [.createRaftAttributes 5 ["http://a:2380"]] ∧
      cAdd.store.members = (5, m5) :: cEmpty.store.members) ∧
    (cAdd.members = (5, m5) :: cEmpty.members ∧
      cAdd.removed = cEmpty.removed ∧
      cAdd.transport = cEmpty.transport ++ [.addPeer 5 ["http://a:2380"]] ∧
      cAdd.index = 1) ∧
    (cUpd.members = cAdd.members ∧ cUpd.removed = cAdd.removed ∧
      cUpd.transport = cAdd.transport ∧ cUpd.index = cAdd.index) ∧
    (cRem.members = eraseKey cAdd.members 5 ∧ cRem.removed = 5 :: cAdd.removed ∧
      cRem.transport = cAdd.transport ++ [.removePeer 5] ∧ cRem.index = 2) :=
  ⟨((claim_C5 cEmpty m5 0 [] 1).1 cAdd (by decide)).1,
   ((claim_C5 cEmpty m5 0 [] 1).1 cAdd (by decide)).2.2 (by decide),
   ((claim_C5 cAdd m5 5 ["http://b:2380"] 1).2.2 cUpd (by decide)).2.1
     (by decide),
   ((claim_C5 cAdd m5 5 ["http://b:2380"] 2).2.1 cRem (by decide)).2.2
     (by decide)⟩

/-! ### Apply-engine lemmas (claim C2) -/

theorem consec_lb {n : Nat} {es : List Entry} (h : consecFrom n es = true) :
    ∀ e ∈ es, n ≤ e.Index := by
  induction es generalizing n with
  | nil =>
      intro e he
      cases he
  | cons e0 rest ih =>
      have hp : e0.Index = n ∧ consecFrom (n + 1) rest = true := by
        simpa [consecFrom, Bool.and_eq_true, beq_iff_eq] using h
      intro e he
      rcases List.mem_cons.1 he with h1 | h2
      · rw [h1, hp.1]
      · exact Nat.le_of_succ_le (ih hp.2 e h2)

theorem consec_lt {n : Nat} {es : List Entry} (h : consecFrom n es = true) :
    ∀ e ∈ es, e.Index < n + es.length := by
  induction es generalizing n with
  | nil =>
      intro e he
      cases he
  | cons e0 rest ih =>
      have hp : e0.Index = n ∧ consecFrom (n + 1) rest = true := by
        simpa [consecFrom, Bool.and_eq_true, beq_iff_eq] using h
      intro e he
      rcases List.mem_cons.1 he with h1 | h2
      · rw [h1, hp.1]
        simp only [List.length_cons]
        omega
      · have := ih hp.2 e h2
        simp only [List.length_cons]
        omega

theorem consec_drop {n : Nat} {es : List Entry} (h : consecFrom n es = true)
    (k : Nat) : consecFrom (n + k) (es.drop k) = true := by
  induction es generalizing n k with
  | nil => simp [List.drop_nil, consecFrom]
  | cons e0 rest ih =>
      cases k with
      | zero => simpa using h
      | succ j =>
          have hp : consecFrom (n + 1) rest = true := by
            have := by simpa [consecFrom, Bool.and_eq_true, beq_iff_eq] using h
            exact this.2
          rw [List.drop_succ_cons]
          have he : n + (j + 1) = n + 1 + j := by omega
          rw [he]
          exact ih hp j

theorem lastIdxD_consec {n : Nat} {es : List Entry}
    (h : consecFrom n es = true) (hne : es ≠ []) (a : Nat) :
    lastIdxD a es = n + es.length - 1 := by
  induction es generalizing n a with
  | nil => exact absurd rfl hne
  | cons e0 rest ih =>
      have hp : e0.Index = n ∧ consecFrom (n + 1) rest = true := by
        simpa [consecFrom, Bool.and_eq_true, beq_iff_eq] using h
      by_cases hr : rest = []
      · subst hr
        show lastIdxD e0.Index [] = n + 1 - 1
        simp [lastIdxD, hp.1]
      · have h2 := ih hp.2 hr e0.Index
        show List.foldl (fun _ e => e.Index) e0.Index rest = _
        have h3 : List.foldl (fun _ e => e.Index) e0.Index rest =
            lastIdxD e0.Index rest := rfl
        rw [h3, h2]
        simp only [List.length_cons]
        omega

theorem drop_eq_filter {es : List Entry} {n : Nat}
    (h : consecFrom n es = true) (m : Nat) (hnm : n ≤ m + 1) :
    es.drop (m + 1 - n) = es.filter (fun e => decide (m < e.Index)) := by
  induction es generalizing n with
  | nil => simp
  | cons e0 rest ih =>
      have hp : e0.Index = n ∧ consecFrom (n + 1) rest = true := by
        simpa [consecFrom, Bool.and_eq_true, beq_iff_eq] using h
      by_cases hle : n ≤ m
      · have h1 : m + 1 - n = (m - n) + 1 := by omega
        rw [h1, List.drop_succ_cons]
        have h2 : m - n = m + 1 - (n + 1) := by omega
        rw [h2, ih hp.2 (by omega), List.filter_cons]
        have h3 : decide (m < e0.Index) = false := by
          rw [hp.1]
          simp only [decide_eq_false_iff_not]
          omega
        simp [h3]
      · have h0 : m + 1 - n = 0 := by omega
        rw [h0, List.drop_zero]
        symm
        rw [List.filter_eq_self]
        intro e he
        have hlb := consec_lb h e he
        simp only [decide_eq_true_eq]
        omega

theorem applyEntriesBatch_drop (st : ApplyState) (e0 : Entry)
    (rest : List Entry) (hg : e0.Index ≤ st.appliedi + 1) :
    applyEntriesBatch st (e0 :: rest) =
      some (sApply st ((e0 :: rest).drop (st.appliedi + 1 - e0.Index))) := by
  show (if st.appliedi + 1 < e0.Index then none
    else
      let ents :=
        if st.appliedi + 1 - e0.Index < (e0 :: rest).length then
          (e0 :: rest).drop (st.appliedi + 1 - e0.Index)
        else []
      some (sApply st ents)) = _
  rw [if_neg (by omega)]
  by_cases hlen : st.appliedi + 1 - e0.Index < (e0 :: rest).length
  · simp only [if_pos hlen]
  · simp only [if_neg hlen]
    rw [List.drop_eq_nil_of_le (by omega)]

theorem foldl_applyStep (es : List Entry) (a : Nat) (st : ApplyState) :
    es.foldl applyStep (a, st) =
      (lastIdxD a es,
        ⟨st.appliedi, st.storeTrace ++ (es.map entryStoreFx).flatten,
          st.confTrace ++ (es.map entryConfFx).flatten⟩) := by
  induction es generalizing a st with
  | nil => simp [lastIdxD]
  | cons e rest ih =>
      cases hd : e.data with
      | normal r =>
          simp only [List.foldl_cons, applyStep, hd]
          rw [ih]
          simp [lastIdxD, entryStoreFx, entryConfFx, hd, List.append_assoc]
      | confChange cc =>
          simp only [List.foldl_cons, applyStep, hd]
          rw [ih]
          simp [lastIdxD, entryStoreFx, entryConfFx, hd, List.append_assoc]

theorem sApply_eq (st : ApplyState) (es : List Entry) :
    sApply st es =
      ⟨lastIdxD 0 es, st.storeTrace ++ (es.map entryStoreFx).flatten,
        st.confTrace ++ (es.map entryConfFx).flatten⟩ := by
  unfold sApply
  rw [foldl_applyStep]

/-- C2: over a raft batch with consecutive indices that starts no later
than `appliedi + 1`: (1) when every entry's index is at most the current
`appliedi` the engine executes nothing — the store and conf-change traces
are unchanged; (2) in general exactly the entries with index strictly
greater than `appliedi` are executed, in order; (3) handing the engine the
same batch a second time after a first hand that executed something leaves
the observable store state identical — the replay executes nothing. -/
theorem claim_C2 (st : ApplyState) (e0 : Entry) (rest : List Entry)
    (hc : consecFrom e0.Index (e0 :: rest) = true)
    (hg : e0.Index ≤ st.appliedi + 1) :
    ((∀ e ∈ e0 :: rest, e.Index ≤ st.appliedi) →
      ∃ st2, applyEntriesBatch st (e0 :: rest) = some st2 ∧
        st2.storeTrace = st.storeTrace ∧ st2.confTrace = st.confTrace) ∧
    (∃ st1, applyEntriesBatch st (e0 :: rest) = some st1 ∧
      st1.storeTrace = st.storeTrace ++
        (((e0 :: rest).filter (fun e => decide (st.appliedi < e.Index))).map
          entryStoreFx).flatten ∧
      st1.confTrace = st.confTrace ++
        (((e0 :: rest).filter (fun e => decide (st.appliedi < e.Index))).map
          entryConfFx).flatten) ∧
    (st.appliedi < e0.Index + rest.length →
      ∃ st1 st2, applyEntriesBatch st (e0 :: rest) = some st1 ∧
        applyEntriesBatch st1 (e0 :: rest) = some st2 ∧
        st2.storeTrace = st1.storeTrace ∧ st2.confTrace = st1.confTrace) := by
  have hbd := applyEntriesBatch_drop st e0 rest hg
  have hdf := drop_eq_filter hc st.appliedi hg
  have h2 : applyEntriesBatch st (e0 :: rest) =
      some (sApply st ((e0 :: rest).filter
        (fun e => decide (st.appliedi < e.Index)))) := by
    rw [hbd, hdf]
  refine ⟨?_, ?_, ?_⟩
  · intro hstale
    have hnil : (e0 :: rest).filter
        (fun e => decide (st.appliedi < e.Index)) = [] := by
      rw [List.filter_eq_nil_iff]
      intro e he
      simp only [decide_eq_true_eq, not_lt]
      exact hstale e he
    refine ⟨_, h2, ?_, ?_⟩
    · rw [sApply_eq, hnil]
      simp
    · rw [sApply_eq, hnil]
      simp
  · exact ⟨_, h2, by rw [sApply_eq], by rw [sApply_eq]⟩
  · intro hfresh
    have hk : st.appliedi + 1 - e0.Index < (e0 :: rest).length := by
      simp only [List.length_cons]
      omega
    have hlend : ((e0 :: rest).drop (st.appliedi + 1 - e0.Index)).length =
        (e0 :: rest).length - (st.appliedi + 1 - e0.Index) :=
      List.length_drop _ _
    have hne : (e0 :: rest).drop (st.appliedi + 1 - e0.Index) ≠ [] := by
      intro hnil
      rw [hnil] at hlend
      simp only [List.length_nil, List.length_cons] at hlend
      omega
    have hconsDrop := consec_drop hc (st.appliedi + 1 - e0.Index)
    have hlast := lastIdxD_consec hconsDrop hne 0
    have happl : (sApply st ((e0 :: rest).drop
        (st.appliedi + 1 - e0.Index))).appliedi = e0.Index + rest.length := by
      rw [sApply_eq]
      show lastIdxD 0 _ = _
      rw [hlast, hlend]
      simp only [List.length_cons]
      omega
    have hg2 : e0.Index ≤ (sApply st ((e0 :: rest).drop
        (st.appliedi + 1 - e0.Index))).appliedi + 1 := by
      rw [happl]
      omega
    have hbd2 := applyEntriesBatch_drop
      (sApply st ((e0 :: rest).drop (st.appliedi + 1 - e0.Index))) e0 rest hg2
    have hdrop2 : (e0 :: rest).drop ((sApply st ((e0 :: rest).drop
        (st.appliedi + 1 - e0.Index))).appliedi + 1 - e0.Index) = [] := by
      apply List.drop_eq_nil_of_le
      rw [happl]
      simp only [List.length_cons]
      omega
    refine ⟨sApply st ((e0 :: rest).drop (st.appliedi + 1 - e0.Index)),
      sApply (sApply st ((e0 :: rest).drop (st.appliedi + 1 - e0.Index))) [],
      hbd, ?_, ?_, ?_⟩
    · rw [hbd2, hdrop2]
    · rw [sApply_eq]
      simp
    · rw [sApply_eq]
      simp

/-- C2 (witness): the theorem applied to a one-entry batch at index 3 —
once against a state with `appliedi = 5` (stale: nothing executed), once
against a state with `appliedi = 2` (fresh: replaying the same batch after
it was applied leaves the traces unchanged). -/
theorem claim_C2_witness :
    (∃ st2, applyEntriesBatch ⟨5, [], []⟩ [eW] = some st2 ∧
      st2.storeTrace = (⟨5, [], []⟩ : ApplyState).storeTrace ∧
      st2.confTrace = (⟨5, [], []⟩ : ApplyState).confTrace) ∧
    (∃ st1 st2, applyEntriesBatch ⟨2, [], []⟩ [eW] = some st1 ∧
      applyEntriesBatch st1 [eW] = some st2 ∧
      st2.storeTrace = st1.storeTrace ∧ st2.confTrace = st1.confTrace) :=
  ⟨(claim_C2 ⟨5, [], []⟩ eW [] (by decide) (by decide)).1 (by decide),
   (claim_C2 ⟨2, [], []⟩ eW [] (by decide) (by decide)).2.2 (by decide)⟩

/-! ### Buffer lemmas and SHA-1 sanity checks (claim C6) -/

theorem be64_length (x : Nat) : (be64 x).length = 8 := rfl

theorem flatten_map_be64_length (l : List Nat) :
    ((l.map be64).flatten).length = 8 * l.length := by
  induction l with
  | nil => rfl
  | cons x rest ih =>
      simp only [List.map_cons, List.flatten_cons, List.length_append, ih,
        be64_length, List.length_cons]
      omega

theorem genIDBytes_aux (ids : List Nat) (k : Nat) (hk : k ≤ ids.length) :
    (List.range k).foldl
        (fun b i => putUint64 b (8 * i) (ids.getD i 0))
        (List.replicate (8 * ids.length) 0) =
      ((ids.take k).map be64).flatten ++
        List.replicate (8 * (ids.length - k)) 0 := by
  induction k with
  | zero => simp
  | succ j ih =>
      have hj : j ≤ ids.length := by omega
      have hjlt : j < ids.length := by omega
      rw [List.range_succ, List.foldl_append, ih hj]
      show putUint64 (((ids.take j).map be64).flatten ++
        List.replicate (8 * (ids.length - j)) 0) (8 * j) (ids.getD j 0) = _
      have hF : (((ids.take j).map be64).flatten).length = 8 * j := by
        rw [flatten_map_be64_length, List.length_take_of_le hj]
      unfold putUint64
      rw [List.take_left' hF]
      have hdrop : (((ids.take j).map be64).flatten ++
          List.replicate (8 * (ids.length - j)) 0).drop (8 * j + 8) =
          List.replicate (8 * (ids.length - (j + 1))) 0 := by
        have h1 : (((ids.take j).map be64).flatten ++
            List.replicate (8 * (ids.length - j)) 0).drop (8 * j) =
            List.replicate (8 * (ids.length - j)) 0 := List.drop_left' hF
        have h2 : 8 * j + 8 = 8 * j + 8 := rfl
        rw [← List.drop_drop, h1, List.drop_replicate]
        congr 1
        omega
      rw [hdrop]
      have htake : ids.take (j + 1) = ids.take j ++ [ids.getD j 0] := by
        rw [List.take_succ, List.getElem?_eq_getElem hjlt]
        simp [List.getD_eq_getElem?_getD, List.getElem?_eq_getElem hjlt]
      rw [htake]
      simp [List.append_assoc]

theorem genIDBytes_eq (ids : List Nat) :
    genIDBytes ids = (ids.map be64).flatten := by
  unfold genIDBytes
  rw [genIDBytes_aux ids ids.length (Nat.le_refl _)]
  simp

set_option maxRecDepth 100000 in
/-- SHA-1 sanity check against the standard test vector: the digest of
`"abc"`. -/
theorem sha1_abc :
    sha1 [97, 98, 99] = [169, 153, 62, 54, 71, 6, 129, 106, 186, 62, 37,
      113, 120, 80, 194, 108, 156, 208, 216, 157] := by
  decide

set_option maxRecDepth 100000 in
/-- `genID` on a concrete two-member cluster (ids 3 and 1, cached in
unsorted order) agrees with the SHA-1 of `be64 1 ++ be64 3` as computed by
a reference implementation. -/
theorem genID_concrete :
    genID ⟨0, [(3, ⟨3, [], "", []⟩), (1, ⟨1, [], "", []⟩)], [], 0,
      ⟨[], [], []⟩, []⟩ = 13858903032348945164 := by
  decide

/-- C6: `genID` sets the cluster ID to the first 8 bytes, read big-endian,
of the SHA-1 hash of the concatenation of all member IDs sorted ascending,
each encoded as a 64-bit big-endian value. -/
theorem claim_C6 (c : Cluster) : genID c = genIDSpec c := by
  unfold genID genIDSpec MemberIDs
  rw [genIDBytes_eq]

end Etcd
